import Mathlib

/-!
ghfork: the selective tree transformation pipeline of `main.go`.

A shallow embedding of `Run` (handler construction and the `filepath.Walk`
callback), `handle`, `rReplace`, `sReplace`, `writeFile` and `moveFile`,
together with the library functions they call (`bytes.ReplaceAll`,
`strings.TrimPrefix`, `filepath.Walk`), and the properties of the pipeline.

The regular expression library `regexp2` is a parameter of the development
(`Regexp2`); closed examples instantiate it with `rxLit`, an engine for the
anchor-and-literal fragment of the pattern language.
-/

namespace Ghfork

/-! ## Go values -/

/-- A Go `[]byte`: each element is a byte, `0 ≤ b < 256`. -/
abbrev Bytes := List Nat

/-- The bytes `[]byte(s)` of a Go string (UTF-8). -/
def bytesOf (s : String) : Bytes :=
  (s.data.flatMap String.utf8EncodeChar).map UInt8.toNat

/-- Working copy root: `const temp = "temp"`. -/
def temp : String := "temp"

/-- Auxiliary for `TrimPrefix`: `some rest` when the first list starts with the second. -/
def dropLeading : List Char → List Char → Option (List Char)
  | s, [] => some s
  | [], _ :: _ => none
  | c :: s, p :: ps => if c = p then dropLeading s ps else none

/-- Go `strings.TrimPrefix(s, pre)`: `s` without the leading `pre`, or `s` itself. -/
def TrimPrefix (s pre : String) : String :=
  match dropLeading s.data pre.data with
  | some rest => String.mk rest
  | none => s

/-- Go `filepath.Join(path, name)` for a directory path and an entry name read from it. -/
def Join (path name : String) : String := path ++ "/" ++ name

/-! ## The regular expression library -/

/-- The part of `github.com/dlclark/regexp2` that `main.go` uses.
`compiles s` tells whether `regexp2.Compile(s, 0)` succeeds (when it does not,
`regexp2.MustCompile(s, 0)` panics); `matchString s p` is the first result of
`MustCompile(s, 0).MatchString(p)`; `replace exp s rep` is
`[]byte(r)` for `r, _ := MustCompile(exp, 0).Replace(string(s), rep, 0, -1)`. -/
structure Regexp2 where
  compiles : String → Bool
  matchString : String → String → Bool
  replace : String → Bytes → String → Bytes

/-! ## Configuration -/

/-- Go `HandlerModel`. -/
structure HandlerModel where
  Type' : String
  Args : List String

/-- Go `Options`. -/
structure Options where
  Source : String := ""
  BeforeShell : List String := []
  ProcessFile : List HandlerModel := []
  AfterShell : List String := []
  Include : List String := []
  Exclude : List String := []

/-! ## Handlers -/

/-- Go `Handler`, a `func(context.Context, []byte) []byte`; `none` is a panic. -/
abbrev Handler := Bytes → Option Bytes

/-- Go `rReplace`: the pattern is compiled with `MustCompile` at every call. -/
def rReplace (rx : Regexp2) (exp rep : String) : Handler :=
  fun s => if rx.compiles exp then some (rx.replace exp s rep) else none

/-- Go `bytes.Index(s, sep)`: offset of the first occurrence of `sep` in `s`. -/
def Index : Bytes → Bytes → Option Nat
  | [], sep => if sep = [] then some 0 else none
  | b :: s, sep =>
    if sep.isPrefixOf (b :: s) then some 0 else (Index s sep).map (· + 1)

/-- Loop of Go `bytes.Count` for a non-empty separator. -/
def countLoop (sep : Bytes) : Nat → Bytes → Nat
  | 0, _ => 0
  | fuel + 1, s =>
    match Index s sep with
    | none => 0
    | some i => 1 + countLoop sep fuel (s.drop (i + sep.length))

/-- Width of the first UTF-8 sequence of `s`, as `utf8.DecodeRune` reports it:
0 for the empty slice, 1 for an invalid encoding. -/
def runeWidth : Bytes → Nat
  | [] => 0
  | b0 :: rest =>
    let cont := fun (b : Nat) => 0x80 ≤ b ∧ b ≤ 0xBF
    if b0 < 0x80 then 1
    else if 0xC2 ≤ b0 ∧ b0 ≤ 0xDF then
      match rest with
      | b1 :: _ => if cont b1 then 2 else 1
      | _ => 1
    else if 0xE0 ≤ b0 ∧ b0 ≤ 0xEF then
      match rest with
      | b1 :: b2 :: _ =>
        let lo := if b0 = 0xE0 then 0xA0 else 0x80
        let hi := if b0 = 0xED then 0x9F else 0xBF
        if lo ≤ b1 ∧ b1 ≤ hi ∧ cont b2 then 3 else 1
      | _ => 1
    else if 0xF0 ≤ b0 ∧ b0 ≤ 0xF4 then
      match rest with
      | b1 :: b2 :: b3 :: _ =>
        let lo := if b0 = 0xF0 then 0x90 else 0x80
        let hi := if b0 = 0xF4 then 0x8F else 0xBF
        if lo ≤ b1 ∧ b1 ≤ hi ∧ cont b2 ∧ cont b3 then 4 else 1
      | _ => 1
    else 1

/-- Go `bytes.ReplaceAll` with an empty `old`: `new` is inserted at the start
and after every UTF-8 sequence. -/
def insertAtRunes (new : Bytes) : Nat → Bytes → Bytes
  | 0, s => s
  | fuel + 1, s =>
    match s with
    | [] => []
    | b :: rest =>
      let w := runeWidth (b :: rest)
      (b :: rest).take w ++ new ++ insertAtRunes new fuel ((b :: rest).drop w)

/-- Go `utf8.RuneCount(s)`. -/
def runeCount : Nat → Bytes → Nat
  | 0, _ => 0
  | fuel + 1, s =>
    match s with
    | [] => 0
    | b :: rest => 1 + runeCount fuel ((b :: rest).drop (runeWidth (b :: rest)))

/-- Go `bytes.Count(s, sep)`: the number of non-overlapping instances of `sep`. -/
def Count (s sep : Bytes) : Nat :=
  if sep = [] then runeCount s.length s + 1
  else countLoop sep s.length s

/-- Replacement loop of Go `bytes.Replace` for a non-empty `old`: `n` rounds of
"copy up to the next occurrence, copy `new`, step over `old`", then the rest. -/
def replaceLoop (old new : Bytes) : Nat → Bytes → Bytes
  | 0, s => s
  | n + 1, s =>
    match Index s old with
    | none => s
    | some j => s.take j ++ new ++ replaceLoop old new n (s.drop (j + old.length))

/-- Go `bytes.ReplaceAll(s, old, new)`. -/
def ReplaceAll (s old new : Bytes) : Bytes :=
  if old = [] then new ++ insertAtRunes new s.length s
  else replaceLoop old new (Count s old) s

/-- Go `sReplace`. -/
def sReplace (old new : String) : Handler :=
  fun s => some (ReplaceAll s (bytesOf old) (bytesOf new))

/-- Handler construction loop of `Run`, one step: `switch model.Type`. -/
def addHandler (rx : Regexp2) (handlers : List Handler) (model : HandlerModel) : List Handler :=
  if model.Type' = "regexp" then
    if model.Args.length = 2 then
      handlers ++ [rReplace rx (model.Args.getD 0 "") (model.Args.getD 1 "")]
    else handlers
  else if model.Type' = "replace" then
    if model.Args.length = 2 then
      handlers ++ [sReplace (model.Args.getD 0 "") (model.Args.getD 1 "")]
    else handlers
  else handlers

/-- Handler construction loop of `Run`: `for _, model := range opt.ProcessFile`. -/
def buildHandlers (rx : Regexp2) (opt : Options) : List Handler :=
  opt.ProcessFile.foldl (addHandler rx) []

/-- Handler loop of `handle`: `for _, handler := range handlers { s = handler(ctx, s) }`. -/
def applyHandlers : List Handler → Bytes → Option Bytes
  | [], s => some s
  | h :: hs, s =>
    match h s with
    | none => none
    | some s1 => applyHandlers hs s1

/-! ## Files -/

/-- What `os.Stat` and `ioutil.ReadFile` tell about a file. -/
structure File where
  size : Nat
  mode : Nat
  content : Bytes
deriving DecidableEq, Repr

/-- The files of the file system, by path. Directories are implicit, and an
operation fails only when the file it needs is missing. -/
abbrev FS := List (String × File)

/-- Result of a function that returns an `error` and may panic. -/
inductive Result (σ : Type) where
  | ok (s : σ)
  | error (e : String)
  | panic
deriving DecidableEq, Repr

/-- Go `os.Stat(p)`. -/
def Stat (fs : FS) (p : String) : Except String File :=
  match fs.lookup p with
  | some f => .ok f
  | none => .error ("stat " ++ p ++ ": no such file or directory")

/-- Go `ioutil.ReadFile(p)`. -/
def ReadFile (fs : FS) (p : String) : Except String Bytes :=
  match fs.lookup p with
  | some f => .ok f.content
  | none => .error ("open " ++ p ++ ": no such file or directory")

/-- Go `os.MkdirAll(filepath.Dir(target), 0755)`; directories are implicit. -/
def MkdirAll (fs : FS) (_target : String) : Except String FS := .ok fs

/-- Go `ioutil.WriteFile(target, data, mode)`: an existing file keeps its mode. -/
def WriteFile (fs : FS) (target : String) (data : Bytes) (mode : Nat) : Except String FS :=
  let m := match fs.lookup target with
    | some f => f.mode
    | none => mode
  .ok ((target, { size := data.length, mode := m, content := data }) ::
    fs.filter (fun e => e.1 != target))

/-- Go `os.Remove(p)`. -/
def Remove (fs : FS) (p : String) : Except String FS :=
  match fs.lookup p with
  | some _ => .ok (fs.filter (fun e => e.1 != p))
  | none => .error ("remove " ++ p ++ ": no such file or directory")

/-- Go `os.Rename(source, target)`. -/
def Rename (fs : FS) (source target : String) : Except String FS :=
  match fs.lookup source with
  | some f => .ok ((target, f) :: fs.filter (fun e => e.1 != source && e.1 != target))
  | none => .error ("rename " ++ source ++ " " ++ target ++ ": no such file or directory")

/-- Go `writeFile`. -/
def writeFile (fs : FS) (target : String) (data : Bytes) (mode : Nat) : Except String FS :=
  match MkdirAll fs target with
  | .error e => .error e
  | .ok fs1 => WriteFile fs1 target data mode

/-- Go `moveFile`. -/
def moveFile (fs : FS) (source target : String) : Except String FS :=
  match MkdirAll fs target with
  | .error e => .error e
  | .ok fs1 => Rename fs1 source target

/-- An `error` return value as a `Result`. -/
def Result.ofExcept {σ : Type} : Except String σ → Result σ
  | .ok s => .ok s
  | .error e => .error e

/-- Go `handle`. -/
def handle (fs : FS) (src target : String) (handlers : List Handler) : Result FS :=
  match Stat fs src with
  | .error e => .error e
  | .ok srcInfo =>
    if srcInfo.size < 1024 * 20 then
      match ReadFile fs src with
      | .error e => .error e
      | .ok s =>
        match applyHandlers handlers s with
        | none => .panic
        | some s1 =>
          match writeFile fs target s1 srcInfo.mode with
          | .error e => .error e
          | .ok fs1 => Result.ofExcept (Remove fs1 src)
    else Result.ofExcept (moveFile fs src target)

/-! ## The walk callback -/

/-- The `os.FileInfo` methods the callback calls. -/
structure FileInfo where
  name : String
  isDir : Bool
deriving DecidableEq, Repr

/-- What the callback of `filepath.Walk` does: `return filepath.SkipDir`,
`return nil`, `return handle(ctx, path, target, handlers...)`, or a panic. -/
inductive Decision where
  | skipDir
  | retNil
  | handle (src target : String)
  | panic
deriving DecidableEq, Repr

/-- Outcome of a `for _, s := range patterns` loop over `MustCompile(s, 0).MatchString(path)`. -/
inductive Scan where
  | found
  | notFound
  | panic
deriving DecidableEq, Repr

/-- The loops `for _, s := range opt.Include` and `for _, s := range opt.Exclude`:
stop at the first pattern that matches `path`. -/
def scanPatterns (rx : Regexp2) (path : String) : List String → Scan
  | [] => .notFound
  | s :: rest =>
    if rx.compiles s then
      if rx.matchString s path then .found else scanPatterns rx path rest
    else .panic

/-- The callback from the label `FindExclude` on. -/
def findExclude (rx : Regexp2) (opt : Options) (path : String) (info : FileInfo) : Decision :=
  match scanPatterns rx path opt.Exclude with
  | .panic => .panic
  | .found => if info.isDir then .skipDir else .retNil
  | .notFound =>
    if info.isDir then .retNil
    else .handle path (TrimPrefix path (temp ++ "/"))

/-- The callback `func(path string, info os.FileInfo, err error) error` that `Run`
passes to `filepath.Walk`. A nil `info` makes `info.Name()` panic. -/
def walkFn (rx : Regexp2) (opt : Options) (path : String) (info : Option FileInfo)
    (_err : Option String) : Decision :=
  match info with
  | none => .panic
  | some info =>
    if info.name = ".git" then .skipDir
    else if opt.Include.length > 0 && !info.isDir then
      match scanPatterns rx path opt.Include with
      | .panic => .panic
      | .found => findExclude rx opt path info
      | .notFound => if info.isDir then .skipDir else .retNil
    else findExclude rx opt path info

/-! ## filepath.Walk -/

/-- The tree as `filepath.Walk` observes it: what `lstat` and `readDirNames`
answer for each node. The children of a directory are in the order
`readDirNames` returns them, sorted by name. -/
inductive Node where
  | file (name : String)
  | dir (name : String) (children : List Node)
  | unreadable (name : String) (err : String)
  | nostat (name : String) (err : String)
deriving Repr

/-- Name of the node. -/
def Node.name : Node → String
  | .file n => n
  | .dir n _ => n
  | .unreadable n _ => n
  | .nostat n _ => n

/-- Whether `lstat` reports a directory. -/
def Node.isDir : Node → Bool
  | .file _ => false
  | .dir _ _ => true
  | .unreadable _ _ => true
  | .nostat _ _ => false

/-- Whether `lstat` fails on the node. -/
def Node.lstatFails : Node → Bool
  | .nostat _ _ => true
  | _ => false

/-- The `error` a walk function returns, or a panic. -/
inductive Status where
  | nil
  | skipDir
  | error (e : String)
  | panic
deriving DecidableEq, Repr

/-- One call of `handle` made by the callback: the names below the root that lead
to the file, and the two paths passed. -/
structure Dispatch where
  rel : List String
  src : String
  target : String
deriving DecidableEq, Repr

/-- State threaded through the walk: the file system and the calls of `handle` so far. -/
structure WalkState (σ : Type) where
  fs : σ
  log : List Dispatch

/-- One call of the walk function: the callback decides, and `hdl` runs when it
returns `handle(...)`. -/
def invoke {σ : Type} (cb : String → Option FileInfo → Option String → Decision)
    (hdl : σ → String → String → Result σ) (path : String) (rel : List String)
    (info : Option FileInfo) (err : Option String) (st : WalkState σ) :
    Status × WalkState σ :=
  match cb path info err with
  | .skipDir => (.skipDir, st)
  | .retNil => (.nil, st)
  | .panic => (.panic, st)
  | .handle src target =>
    let log := st.log ++ [{ rel := rel, src := src, target := target }]
    match hdl st.fs src target with
    | .ok fs1 => (.nil, { fs := fs1, log := log })
    | .error e => (.error e, { fs := st.fs, log := log })
    | .panic => (.panic, { fs := st.fs, log := log })

mutual
/-- Go `filepath.walk(path, info, walkFn)`. -/
def walk {σ : Type} (cb : String → Option FileInfo → Option String → Decision)
    (hdl : σ → String → String → Result σ) (path : String) (rel : List String) :
    Node → WalkState σ → Status × WalkState σ
  | .file name, st => invoke cb hdl path rel (some ⟨name, false⟩) none st
  | .nostat _ err, st => invoke cb hdl path rel none (some err) st
  | .unreadable name err, st => invoke cb hdl path rel (some ⟨name, true⟩) (some err) st
  | .dir name children, st =>
    match invoke cb hdl path rel (some ⟨name, true⟩) none st with
    | (.nil, st1) => walkNames cb hdl path rel children st1
    | r => r
/-- The loop `for _, name := range names` of `filepath.walk`. -/
def walkNames {σ : Type} (cb : String → Option FileInfo → Option String → Decision)
    (hdl : σ → String → String → Result σ) (path : String) (rel : List String) :
    List Node → WalkState σ → Status × WalkState σ
  | [], st => (.nil, st)
  | n :: rest, st =>
    match walk cb hdl (Join path n.name) (rel ++ [n.name]) n st with
    | (.nil, st1) => walkNames cb hdl path rel rest st1
    | (.skipDir, st1) =>
      if n.isDir || n.lstatFails then walkNames cb hdl path rel rest st1
      else (.skipDir, st1)
    | r => r
end

/-- Go `filepath.Walk(root, walkFn)`. -/
def Walk {σ : Type} (cb : String → Option FileInfo → Option String → Decision)
    (hdl : σ → String → String → Result σ) (root : String) (n : Node)
    (st : WalkState σ) : Status × WalkState σ :=
  match walk cb hdl root [] n st with
  | (.skipDir, st1) => (.nil, st1)
  | r => r

/-- The walk of `Run`: `filepath.Walk(temp, ...)` with `handle` on the handlers
built from the options. -/
def runWalk (rx : Regexp2) (opt : Options) (root : Node) (fs : FS) :
    Status × WalkState FS :=
  Walk (walkFn rx opt) (fun fs src target => handle fs src target (buildHandlers rx opt))
    temp root { fs := fs, log := [] }

/-! ## An engine for closed examples -/

/-- Pattern element of the fragment: `^`, `$`, `.`, or one character. -/
inductive Atom where
  | bol
  | eol
  | any
  | lit (c : Char)
deriving DecidableEq, Repr

/-- Characters that are operators of the pattern language outside the fragment. -/
def isOperator (c : Char) : Bool :=
  c ∈ ['(', ')', '[', ']', '{', '}', '*', '+', '?', '|', '#', ' ']

/-- Parse a pattern of the fragment; `none` for every other pattern. The flag
tells that the previous character was an unescaped backslash. -/
def parseAtoms : Bool → List Char → Option (List Atom)
  | esc, [] => if esc then none else some []
  | true, d :: rest =>
    if d.isAlphanum then none
    else (parseAtoms false rest).map (fun as => Atom.lit d :: as)
  | false, c :: rest =>
    if c = '\\' then parseAtoms true rest
    else if c = '^' then (parseAtoms false rest).map (fun as => Atom.bol :: as)
    else if c = '$' then (parseAtoms false rest).map (fun as => Atom.eol :: as)
    else if c = '.' then (parseAtoms false rest).map (fun as => Atom.any :: as)
    else if isOperator c then none
    else (parseAtoms false rest).map (fun as => Atom.lit c :: as)

/-- Match the atoms at the current position; `atStart` tells that the position
is the start of the input. The result is the number of characters consumed. -/
def matchHere : List Atom → Bool → List Char → Option Nat
  | [], _, _ => some 0
  | .bol :: as, atStart, cs => if atStart then matchHere as atStart cs else none
  | .eol :: as, atStart, cs =>
    if cs = [] ∨ cs = ['\n'] then matchHere as atStart cs else none
  | .any :: _, _, [] => none
  | .any :: as, _, c :: cs =>
    if c = '\n' then none else (matchHere as false cs).map (· + 1)
  | .lit _ :: _, _, [] => none
  | .lit a :: as, _, c :: cs =>
    if a = c then (matchHere as false cs).map (· + 1) else none

/-- Whether the atoms match at some position of the input. -/
def searchFrom (as : List Atom) : Bool → List Char → Bool
  | atStart, [] => (matchHere as atStart []).isSome
  | atStart, c :: cs => (matchHere as atStart (c :: cs)).isSome || searchFrom as false cs

/-- Replace every match, left to right; `skip` counts the characters of the
current match still to step over. -/
def replaceFrom (as : List Atom) (rep : List Char) : Nat → Bool → List Char → List Char
  | 0, atStart, [] => if (matchHere as atStart []).isSome then rep else []
  | _ + 1, _, [] => []
  | skip + 1, _, _ :: cs => replaceFrom as rep skip false cs
  | 0, atStart, c :: cs =>
    match matchHere as atStart (c :: cs) with
    | none => c :: replaceFrom as rep 0 false cs
    | some 0 => rep ++ c :: replaceFrom as rep 0 false cs
    | some (k + 1) => rep ++ replaceFrom as rep k false cs

/-- An instance of `Regexp2` for closed examples. It agrees with regexp2 on the
patterns made of plain characters, escaped punctuation, `.`, `^` and `$`, on
ASCII input and replacement text without `$`; every other pattern is reported
as failing to compile, which is the answer of regexp2 for the unbalanced `(`
of the examples. -/
def rxLit : Regexp2 where
  compiles := fun s => (parseAtoms false s.data).isSome
  matchString := fun s p =>
    match parseAtoms false s.data with
    | some as => searchFrom as true p.data
    | none => false
  replace := fun exp s rep =>
    match parseAtoms false exp.data with
    | some as => (replaceFrom as rep.data 0 true (s.map Char.ofNat)).map Char.toNat
    | none => []

/-! ## Specification vocabulary -/

/-- The handler that one `process_file` entry stands for, in the words of the
configuration format: type `regexp` or `replace` with exactly two arguments. -/
def handlerOf (rx : Regexp2) (m : HandlerModel) : Option Handler :=
  match m.Args with
  | [a, b] =>
    if m.Type' = "regexp" then some (rReplace rx a b)
    else if m.Type' = "replace" then some (sReplace a b)
    else none
  | _ => none

/-- The file that `ioutil.WriteFile` leaves at `target`. -/
def written (fs : FS) (target : String) (data : Bytes) (mode : Nat) : File :=
  { size := data.length,
    mode := (match fs.lookup target with
      | some g => g.mode
      | none => mode),
    content := data }

/-- A logged call of `handle` is sound: no name on the way to the file is `.git`,
the source is the walked path, the target is the source without `temp/`, some
include pattern matches the source when there are include patterns, and no
exclude pattern matches it. -/
def GoodDispatch (rx : Regexp2) (opt : Options) (root : String) (d : Dispatch) : Prop :=
  ".git" ∉ d.rel ∧ d.src = d.rel.foldl Join root ∧
    d.target = TrimPrefix d.src (temp ++ "/") ∧
    (opt.Include ≠ [] → ∃ s ∈ opt.Include, rx.matchString s d.src = true) ∧
    (∀ s ∈ opt.Exclude, rx.matchString s d.src = false)

/-- Go `breakError(err)`: whether the process exits with status 1. -/
def breakError (err : Status) : Bool :=
  match err with
  | .nil => false
  | _ => true

/-! ## Lemmas: `bytes.ReplaceAll` -/

theorem Index_eq_none {old : Bytes} (hold : old ≠ []) :
    ∀ s : Bytes, ¬ old <:+: s → Index s old = none := by
  intro s
  induction s with
  | nil => intro _; simp [Index, hold]
  | cons b t ih =>
    intro h
    have h1 : ¬ old <+: b :: t := fun hp => h hp.isInfix
    have h2 : ¬ old <:+: t := fun hi => h (List.infix_cons hi)
    simp [Index, h1, ih h2]

theorem Index_first {old : Bytes} (hold : old ≠ []) (post : Bytes) :
    ∀ pre : Bytes, ¬ old <:+: pre ++ old.dropLast →
      Index (pre ++ old ++ post) old = some pre.length := by
  intro pre
  induction pre with
  | nil =>
    intro _
    cases old with
    | nil => exact absurd rfl hold
    | cons a o => simp [Index]
  | cons b p ih =>
    intro h
    have h2 : ¬ old <:+: p ++ old.dropLast := fun hi => h (List.infix_cons hi)
    have hsplit : b :: p ++ old ++ post
        = (b :: p ++ old.dropLast) ++ ([old.getLast hold] ++ post) := by
      conv_lhs => rw [← List.dropLast_append_getLast hold]
      simp
    have h1 : ¬ old <+: b :: (p ++ old ++ post) := by
      intro hp
      have hp1 : old <+: (b :: p ++ old.dropLast) ++ ([old.getLast hold] ++ post) := by
        rw [← hsplit]; simpa using hp
      have hp2 : (b :: p ++ old.dropLast) <+: (b :: p ++ old.dropLast) ++ ([old.getLast hold] ++ post) :=
        List.prefix_append _ _
      have hlen : old.length ≤ (b :: p ++ old.dropLast).length := by
        simp [List.length_dropLast]
        have : 0 < old.length := List.length_pos.mpr hold
        omega
      exact h (List.prefix_of_prefix_length_le hp1 hp2 hlen).isInfix
    have e : b :: p ++ old ++ post = b :: (p ++ old ++ post) := by simp
    rw [e]
    simp only [Index]
    rw [if_neg (by simpa using h1), ih h2]
    simp

theorem countLoop_fuel {old : Bytes} (hold : old ≠ []) :
    ∀ (f g : Nat) (s : Bytes), s.length ≤ f → s.length ≤ g →
      countLoop old f s = countLoop old g s := by
  intro f
  induction f with
  | zero =>
    intro g s hf _
    have hs : s = [] := List.length_eq_zero.mp (Nat.le_zero.mp hf)
    subst hs
    cases g with
    | zero => rfl
    | succ g => simp [countLoop, Index, hold]
  | succ f ih =>
    intro g s hf hg
    cases g with
    | zero =>
      have hs : s = [] := List.length_eq_zero.mp (Nat.le_zero.mp hg)
      subst hs
      simp [countLoop, Index, hold]
    | succ g =>
      simp only [countLoop]
      cases hI : Index s old with
      | none => rfl
      | some i =>
        have hpos : 0 < old.length := List.length_pos.mpr hold
        have hl : (s.drop (i + old.length)).length ≤ f := by
          rw [List.length_drop]; omega
        have hl2 : (s.drop (i + old.length)).length ≤ g := by
          rw [List.length_drop]; omega
        simp only [ih g _ hl hl2]

theorem Count_first {old : Bytes} (hold : old ≠ []) (pre post : Bytes)
    (h : ¬ old <:+: pre ++ old.dropLast) :
    Count (pre ++ old ++ post) old = Count post old + 1 := by
  have hpos : 0 < old.length := List.length_pos.mpr hold
  have hlen : (pre ++ old ++ post).length = (pre.length + old.length + post.length - 1) + 1 := by
    simp; omega
  have hdrop : (pre ++ old ++ post).drop (pre.length + old.length) = post := by
    have : pre.length + old.length = (pre ++ old).length := by simp
    rw [this, List.drop_left]
  unfold Count
  rw [if_neg hold, if_neg hold, hlen]
  simp only [countLoop]
  rw [Index_first hold post pre h]
  simp only [hdrop]
  rw [countLoop_fuel hold _ post.length post (by omega) (le_refl _)]
  omega

theorem ReplaceAll_absent {old : Bytes} (hold : old ≠ []) (new s : Bytes)
    (h : ¬ old <:+: s) : ReplaceAll s old new = s := by
  have hI := Index_eq_none hold s h
  unfold ReplaceAll
  rw [if_neg hold]
  cases hc : Count s old with
  | zero => rfl
  | succ n => simp [replaceLoop, hI]

theorem ReplaceAll_first {old : Bytes} (hold : old ≠ []) (new pre post : Bytes)
    (h : ¬ old <:+: pre ++ old.dropLast) :
    ReplaceAll (pre ++ old ++ post) old new = pre ++ new ++ ReplaceAll post old new := by
  have hdrop : (pre ++ old ++ post).drop (pre.length + old.length) = post := by
    have : pre.length + old.length = (pre ++ old).length := by simp
    rw [this, List.drop_left]
  have htake : (pre ++ old ++ post).take pre.length = pre := by
    rw [List.append_assoc, List.take_left]
  unfold ReplaceAll
  rw [if_neg hold, if_neg hold, Count_first hold pre post h]
  simp only [replaceLoop]
  rw [Index_first hold post pre h]
  simp only [hdrop, htake]

theorem leftmost_occurrence {old : Bytes} (hold : old ≠ []) :
    ∀ s : Bytes, old <:+: s →
      ∃ pre post, s = pre ++ old ++ post ∧ ¬ old <:+: pre ++ old.dropLast := by
  have hpos : 0 < old.length := List.length_pos.mpr hold
  intro s
  induction s with
  | nil => intro h; exact absurd (List.eq_nil_of_infix_nil h) hold
  | cons b t ih =>
    intro h
    by_cases hp : old <+: b :: t
    · obtain ⟨post, hpost⟩ := hp
      refine ⟨[], post, by simpa using hpost.symm, ?_⟩
      intro hi
      have := hi.length_le
      simp only [List.nil_append, List.length_dropLast] at this
      omega
    · rcases List.infix_cons_iff.mp h with h1 | h1
      · exact absurd h1 hp
      · obtain ⟨pre, post, hs, hno⟩ := ih h1
        refine ⟨b :: pre, post, by rw [hs]; simp, ?_⟩
        intro hi
        rcases List.infix_cons_iff.mp hi with h2 | h2
        · apply hp
          refine h2.trans ?_
          rw [hs]
          refine (List.prefix_cons_inj b).mpr ?_
          refine ⟨[old.getLast hold] ++ post, ?_⟩
          conv_rhs => rw [← List.dropLast_append_getLast hold]
          simp
        · exact hno h2

theorem ReplaceAll_gaps {old : Bytes} (hold : old ≠ []) (new last : Bytes)
    (hlast : ¬ old <:+: last) :
    ∀ gaps : List Bytes, (∀ g ∈ gaps, ¬ old <:+: g ++ old.dropLast) →
      ReplaceAll (gaps.flatMap (fun g => g ++ old) ++ last) old new =
        gaps.flatMap (fun g => g ++ new) ++ last := by
  intro gaps
  induction gaps with
  | nil => intro _; simpa using ReplaceAll_absent hold new last hlast
  | cons g gs ih =>
    intro h
    have hg := h g (List.mem_cons_self _ _)
    have e : (g :: gs).flatMap (fun g => g ++ old) ++ last =
        g ++ old ++ (gs.flatMap (fun g => g ++ old) ++ last) := by
      simp
    rw [e, ReplaceAll_first hold new g _ hg, ih (fun k hk => h k (List.mem_cons_of_mem _ hk))]
    simp

theorem gaps_exist {old : Bytes} (hold : old ≠ []) :
    ∀ (n : Nat) (s : Bytes), s.length ≤ n →
      ∃ (gaps : List Bytes) (last : Bytes),
        (∀ g ∈ gaps, ¬ old <:+: g ++ old.dropLast) ∧ ¬ old <:+: last ∧
        s = gaps.flatMap (fun g => g ++ old) ++ last := by
  have hpos : 0 < old.length := List.length_pos.mpr hold
  intro n
  induction n with
  | zero =>
    intro s hs
    have hs0 : s = [] := List.length_eq_zero.mp (Nat.le_zero.mp hs)
    subst hs0
    exact ⟨[], [], fun g hg => absurd hg (List.not_mem_nil _),
      fun h => hold (List.eq_nil_of_infix_nil h), by simp⟩
  | succ n ih =>
    intro s hs
    by_cases h : old <:+: s
    · obtain ⟨pre, post, hsplit, hno⟩ := leftmost_occurrence hold s h
      have hlen : post.length ≤ n := by
        have := congrArg List.length hsplit
        simp at this
        omega
      obtain ⟨gaps, last, hg, hl, hpost⟩ := ih post hlen
      refine ⟨pre :: gaps, last, ?_, hl, ?_⟩
      · intro g hgm
        rcases List.mem_cons.mp hgm with rfl | h1
        · exact hno
        · exact hg g h1
      · rw [hsplit, hpost]; simp
    · exact ⟨[], s, fun g hg => absurd hg (List.not_mem_nil _), h, by simp⟩

theorem bytesOf_ne_nil {s : String} (h : s ≠ "") : bytesOf s ≠ [] := by
  obtain ⟨cs⟩ := s
  cases cs with
  | nil => exact absurd rfl h
  | cons c cs =>
    intro hb
    have hlen := congrArg List.length hb
    simp [bytesOf] at hlen
    have := Char.utf8Size_pos c
    omega

/-! ## Lemmas: the pattern loops and the callback -/

theorem scanPatterns_notFound (rx : Regexp2) (path : String) :
    ∀ ps : List String,
      (∀ s ∈ ps, rx.compiles s = true ∧ rx.matchString s path = false) →
      scanPatterns rx path ps = .notFound := by
  intro ps
  induction ps with
  | nil => intro _; rfl
  | cons a rest ih =>
    intro h
    have ha := h a (List.mem_cons_self _ _)
    simp only [scanPatterns, ha.1, ha.2, if_true]
    exact ih (fun s hs => h s (List.mem_cons_of_mem _ hs))

theorem scanPatterns_found (rx : Regexp2) (path : String) :
    ∀ ps : List String, (∀ s ∈ ps, rx.compiles s = true) →
      (∃ s ∈ ps, rx.matchString s path = true) → scanPatterns rx path ps = .found := by
  intro ps
  induction ps with
  | nil => intro _ h; obtain ⟨s, hs, _⟩ := h; cases hs
  | cons a rest ih =>
    intro hc hm
    have ha := hc a (List.mem_cons_self _ _)
    simp only [scanPatterns, ha, if_true]
    by_cases hma : rx.matchString a path = true
    · simp [hma]
    · obtain ⟨s, hs, hms⟩ := hm
      have hs1 : s ∈ rest := by
        rcases List.mem_cons.mp hs with rfl | h1
        · exact absurd hms hma
        · exact h1
      simp only [hma]
      exact ih (fun t ht => hc t (List.mem_cons_of_mem _ ht)) ⟨s, hs1, hms⟩

theorem scanPatterns_panic (rx : Regexp2) (path : String) (bad : String) (post : List String)
    (hbad : rx.compiles bad = false) :
    ∀ pre : List String,
      (∀ s ∈ pre, rx.compiles s = true ∧ rx.matchString s path = false) →
      scanPatterns rx path (pre ++ bad :: post) = .panic := by
  intro pre
  induction pre with
  | nil => intro _; simp [scanPatterns, hbad]
  | cons a rest ih =>
    intro h
    have ha := h a (List.mem_cons_self _ _)
    simp only [List.cons_append, scanPatterns, ha.1, ha.2, if_true]
    exact ih (fun s hs => h s (List.mem_cons_of_mem _ hs))

theorem scanPatterns_ne_notFound (rx : Regexp2) (path : String) :
    ∀ ps : List String, (∃ s ∈ ps, rx.matchString s path = true) →
      scanPatterns rx path ps ≠ .notFound := by
  intro ps
  induction ps with
  | nil => intro h; obtain ⟨s, hs, _⟩ := h; cases hs
  | cons a rest ih =>
    intro hm
    simp only [scanPatterns]
    by_cases hca : rx.compiles a = true
    · by_cases hma : rx.matchString a path = true
      · simp [hca, hma]
      · obtain ⟨s, hs, hms⟩ := hm
        have hs1 : s ∈ rest := by
          rcases List.mem_cons.mp hs with rfl | h1
          · exact absurd hms hma
          · exact h1
        simp only [hca, hma, if_true]
        exact ih ⟨s, hs1, hms⟩
    · simp [hca]

theorem scanPatterns_congr (rx rx1 : Regexp2) (path : String) :
    ∀ ps : List String,
      (∀ s ∈ ps, rx.compiles s = rx1.compiles s ∧
        rx.matchString s path = rx1.matchString s path) →
      scanPatterns rx path ps = scanPatterns rx1 path ps := by
  intro ps
  induction ps with
  | nil => intro _; rfl
  | cons a rest ih =>
    intro h
    have ha := h a (List.mem_cons_self _ _)
    simp only [scanPatterns, ha.1, ha.2]
    rw [ih (fun s hs => h s (List.mem_cons_of_mem _ hs))]

theorem findExclude_ne_handle (rx : Regexp2) (opt : Options) (path : String) (info : FileInfo)
    (h : ∃ s ∈ opt.Exclude, rx.matchString s path = true) (src target : String) :
    findExclude rx opt path info ≠ .handle src target := by
  have hne := scanPatterns_ne_notFound rx path opt.Exclude h
  unfold findExclude
  cases hsc : scanPatterns rx path opt.Exclude with
  | notFound => exact absurd hsc hne
  | found => cases info.isDir <;> simp
  | panic => simp

theorem walkFn_git (rx : Regexp2) (opt : Options) (path : String) (isDir : Bool)
    (err : Option String) :
    walkFn rx opt path (some ⟨".git", isDir⟩) err = .skipDir := by
  simp [walkFn]

theorem scanPatterns_found_inv (rx : Regexp2) (path : String) :
    ∀ ps : List String, scanPatterns rx path ps = .found →
      ∃ s ∈ ps, rx.matchString s path = true := by
  intro ps
  induction ps with
  | nil => intro h; cases h
  | cons a rest ih =>
    intro h
    simp only [scanPatterns] at h
    by_cases hca : rx.compiles a = true
    · by_cases hma : rx.matchString a path = true
      · exact ⟨a, List.mem_cons_self _ _, hma⟩
      · simp only [hca, hma, if_true] at h
        obtain ⟨s, hs, hms⟩ := ih h
        exact ⟨s, List.mem_cons_of_mem _ hs, hms⟩
    · simp [hca] at h

theorem scanPatterns_notFound_inv (rx : Regexp2) (path : String) :
    ∀ ps : List String, scanPatterns rx path ps = .notFound →
      ∀ s ∈ ps, rx.compiles s = true ∧ rx.matchString s path = false := by
  intro ps
  induction ps with
  | nil => intro _ s hs; cases hs
  | cons a rest ih =>
    intro h s hs
    simp only [scanPatterns] at h
    by_cases hca : rx.compiles a = true
    · by_cases hma : rx.matchString a path = true
      · simp [hca, hma] at h
      · simp only [hca, hma, if_true] at h
        rcases List.mem_cons.mp hs with rfl | h1
        · exact ⟨hca, by simpa using hma⟩
        · exact ih h s h1
    · simp [hca] at h

theorem findExclude_handle_inv (rx : Regexp2) (opt : Options) (path : String)
    (info : FileInfo) (src target : String)
    (h : findExclude rx opt path info = .handle src target) :
    info.isDir = false ∧ src = path ∧ target = TrimPrefix path (temp ++ "/") ∧
      scanPatterns rx path opt.Exclude = .notFound := by
  unfold findExclude at h
  cases hsc : scanPatterns rx path opt.Exclude <;> rw [hsc] at h <;>
    cases hdir : info.isDir <;> simp [hdir] at h ⊢
  exact ⟨h.1.symm, h.2.symm⟩

theorem walkFn_handle_inv (rx : Regexp2) (opt : Options) (path : String) (info : FileInfo)
    (err : Option String) (src target : String)
    (h : walkFn rx opt path (some info) err = .handle src target) :
    info.name ≠ ".git" ∧ info.isDir = false ∧ src = path ∧
      target = TrimPrefix path (temp ++ "/") ∧
      (opt.Include ≠ [] → ∃ s ∈ opt.Include, rx.matchString s path = true) ∧
      (∀ s ∈ opt.Exclude, rx.matchString s path = false) := by
  unfold walkFn at h
  by_cases hg : info.name = ".git"
  · simp [hg] at h
  · refine ⟨hg, ?_⟩
    simp only [hg, if_false] at h
    by_cases hc : (decide (opt.Include.length > 0) && !info.isDir) = true
    · rw [if_pos hc] at h
      cases hsc : scanPatterns rx path opt.Include with
      | panic => rw [hsc] at h; cases h
      | notFound => rw [hsc] at h; cases hdir : info.isDir <;> simp [hdir] at h
      | found =>
        rw [hsc] at h
        obtain ⟨h1, h2, h3, h4⟩ := findExclude_handle_inv rx opt path info src target h
        exact ⟨h1, h2, h3, fun _ => scanPatterns_found_inv rx path _ hsc,
          fun s hs => (scanPatterns_notFound_inv rx path _ h4 s hs).2⟩
    · rw [if_neg hc] at h
      obtain ⟨h1, h2, h3, h4⟩ := findExclude_handle_inv rx opt path info src target h
      refine ⟨h1, h2, h3, ?_, fun s hs => (scanPatterns_notFound_inv rx path _ h4 s hs).2⟩
      intro hne
      have hlen : 0 < opt.Include.length := List.length_pos.mpr hne
      simp [hlen, h1] at hc

theorem walkFn_retNil_inv (rx : Regexp2) (opt : Options) (path : String) (info : FileInfo)
    (err : Option String) (h : walkFn rx opt path (some info) err = .retNil) :
    info.name ≠ ".git" := by
  intro hg
  simp [walkFn, hg] at h

/-! ## Lemmas: the walk -/

theorem invoke_nostat {σ : Type} (rx : Regexp2) (opt : Options)
    (hdl : σ → String → String → Result σ) (path : String) (rel : List String)
    (err : Option String) (st : WalkState σ) :
    invoke (walkFn rx opt) hdl path rel none err st = (.panic, st) := by
  simp [invoke, walkFn]

theorem invoke_good {σ : Type} (rx : Regexp2) (opt : Options)
    (hdl : σ → String → String → Result σ) (root path : String) (rel : List String)
    (info : FileInfo) (err : Option String) (st : WalkState σ)
    (hpath : path = rel.foldl Join root) (hrel : info.name ≠ ".git" → ".git" ∉ rel)
    (hlog : ∀ d ∈ st.log, GoodDispatch rx opt root d) :
    (∀ d ∈ (invoke (walkFn rx opt) hdl path rel (some info) err st).2.log,
        GoodDispatch rx opt root d) ∧
      ((invoke (walkFn rx opt) hdl path rel (some info) err st).1 = .nil →
        info.name ≠ ".git") := by
  unfold invoke
  cases hd : walkFn rx opt path (some info) err with
  | skipDir => exact ⟨hlog, fun h => by cases h⟩
  | retNil => exact ⟨hlog, fun _ => walkFn_retNil_inv rx opt path info err hd⟩
  | panic => exact ⟨hlog, fun h => by cases h⟩
  | handle src target =>
    obtain ⟨hname, _, hsrc, htgt, hinc, hexc⟩ :=
      walkFn_handle_inv rx opt path info err src target hd
    have hnew : GoodDispatch rx opt root { rel := rel, src := src, target := target } :=
      ⟨hrel hname, by rw [hsrc, hpath], by rw [htgt, hsrc], by rw [hsrc]; exact hinc,
        by rw [hsrc]; exact hexc⟩
    have hall : ∀ d ∈ st.log ++ [{ rel := rel, src := src, target := target }],
        GoodDispatch rx opt root d := by
      intro d hdm
      rcases List.mem_append.mp hdm with h1 | h1
      · exact hlog d h1
      · rw [List.mem_singleton.mp h1]; exact hnew
    dsimp only
    cases hdl st.fs src target with
    | ok fs1 => exact ⟨hall, fun _ => hname⟩
    | error e => exact ⟨hall, fun _ => hname⟩
    | panic => exact ⟨hall, fun _ => hname⟩

mutual
theorem walk_good {σ : Type} (rx : Regexp2) (opt : Options)
    (hdl : σ → String → String → Result σ) (root : String) :
    ∀ (n : Node) (path : String) (rel : List String) (st : WalkState σ),
      path = rel.foldl Join root → (n.name ≠ ".git" → ".git" ∉ rel) →
      (∀ d ∈ st.log, GoodDispatch rx opt root d) →
      ∀ d ∈ (walk (walkFn rx opt) hdl path rel n st).2.log, GoodDispatch rx opt root d
  | .file name, path, rel, st, hpath, hrel, hlog => by
    rw [walk]
    exact (invoke_good rx opt hdl root path rel ⟨name, false⟩ none st hpath hrel hlog).1
  | .nostat name err, path, rel, st, _, _, hlog => by
    rw [walk, invoke_nostat]
    exact hlog
  | .unreadable name err, path, rel, st, hpath, hrel, hlog => by
    rw [walk]
    exact (invoke_good rx opt hdl root path rel ⟨name, true⟩ (some err) st hpath hrel hlog).1
  | .dir name children, path, rel, st, hpath, hrel, hlog => by
    rw [walk]
    have hinv := invoke_good rx opt hdl root path rel ⟨name, true⟩ none st hpath hrel hlog
    generalize invoke (walkFn rx opt) hdl path rel (some ⟨name, true⟩) none st = r at hinv
    obtain ⟨status, st1⟩ := r
    cases status with
    | nil =>
      exact walkNames_good rx opt hdl root children path rel st1 hpath
        (hrel (hinv.2 rfl)) hinv.1
    | skipDir => exact hinv.1
    | error e => exact hinv.1
    | panic => exact hinv.1
theorem walkNames_good {σ : Type} (rx : Regexp2) (opt : Options)
    (hdl : σ → String → String → Result σ) (root : String) :
    ∀ (ns : List Node) (path : String) (rel : List String) (st : WalkState σ),
      path = rel.foldl Join root → ".git" ∉ rel →
      (∀ d ∈ st.log, GoodDispatch rx opt root d) →
      ∀ d ∈ (walkNames (walkFn rx opt) hdl path rel ns st).2.log, GoodDispatch rx opt root d
  | [], path, rel, st, _, _, hlog => by
    rw [walkNames]
    exact hlog
  | n :: rest, path, rel, st, hpath, hrel, hlog => by
    rw [walkNames]
    have hchild := walk_good rx opt hdl root n (Join path n.name) (rel ++ [n.name]) st
      (by rw [List.foldl_append, hpath]; rfl)
      (fun hn => by
        intro hmem
        rcases List.mem_append.mp hmem with h1 | h1
        · exact hrel h1
        · exact hn (List.mem_singleton.mp h1).symm)
      hlog
    generalize walk (walkFn rx opt) hdl (Join path n.name) (rel ++ [n.name]) n st = r at hchild
    obtain ⟨status, st1⟩ := r
    cases status with
    | nil => exact walkNames_good rx opt hdl root rest path rel st1 hpath hrel hchild
    | skipDir =>
      dsimp only
      split
      · exact walkNames_good rx opt hdl root rest path rel st1 hpath hrel hchild
      · exact hchild
    | error e => exact hchild
    | panic => exact hchild
end

theorem walkNames_append {σ : Type} (cb : String → Option FileInfo → Option String → Decision)
    (hdl : σ → String → String → Result σ) (path : String) (rel : List String)
    (post : List Node) :
    ∀ (pre : List Node) (st : WalkState σ),
      walkNames cb hdl path rel (pre ++ post) st =
        match walkNames cb hdl path rel pre st with
        | (.nil, st1) => walkNames cb hdl path rel post st1
        | r => r := by
  intro pre
  induction pre with
  | nil => intro st; simp [walkNames]
  | cons n rest ih =>
    intro st
    rw [List.cons_append, walkNames, walkNames]
    generalize walk cb hdl (Join path n.name) (rel ++ [n.name]) n st = r
    obtain ⟨status, st1⟩ := r
    cases status with
    | nil => exact ih st1
    | skipDir =>
      dsimp only
      split
      · exact ih st1
      · rfl
    | error e => rfl
    | panic => rfl

/-! ## Lemmas: files and `handle` -/

theorem lookup_filter_bne (p q : String) :
    ∀ fs : FS, (fs.filter (fun e => e.1 != p)).lookup q =
      if q = p then none else fs.lookup q := by
  intro fs
  induction fs with
  | nil => simp
  | cons e rest ih =>
    obtain ⟨k, f⟩ := e
    rw [List.filter_cons]
    by_cases hk : k = p
    · have hkb : ((k, f).1 != p) = false := by simp [hk]
      rw [hkb, if_neg (by simp), ih]
      by_cases hq : q = p
      · simp [hq]
      · have hqb : (q == k) = false := by rw [hk]; simpa using hq
        rw [if_neg hq, if_neg hq, List.lookup_cons, hqb]
    · have hkb : ((k, f).1 != p) = true := by simpa using hk
      rw [hkb, if_pos rfl, List.lookup_cons, List.lookup_cons, ih]
      by_cases hq : q = p
      · have hqk : (q == k) = false := by
          rw [hq]; simpa using (fun h : p = k => hk h.symm)
        rw [hqk, if_pos hq]
      · rw [if_neg hq, if_neg hq]

theorem handle_large (fs : FS) (src target : String) (handlers : List Handler) (f : File)
    (hf : fs.lookup src = some f) (hsize : 1024 * 20 ≤ f.size) :
    handle fs src target handlers =
      .ok ((target, f) :: fs.filter (fun e => e.1 != src && e.1 != target)) := by
  have hn : ¬ f.size < 1024 * 20 := Nat.not_lt.mpr hsize
  simp [handle, Stat, hf, hn, moveFile, MkdirAll, Rename, Result.ofExcept]

theorem handle_small_panic (fs : FS) (src target : String) (handlers : List Handler) (f : File)
    (hf : fs.lookup src = some f) (hsize : f.size < 1024 * 20)
    (hp : applyHandlers handlers f.content = none) :
    handle fs src target handlers = .panic := by
  simp [handle, Stat, hf, hsize, ReadFile, hp]

theorem handle_small_eq (fs : FS) (src target : String) (handlers : List Handler) (f : File)
    (out : Bytes) (hf : fs.lookup src = some f) (hsize : f.size < 1024 * 20)
    (hout : applyHandlers handlers f.content = some out) :
    handle fs src target handlers =
      .ok (((target, written fs target out f.mode) ::
        fs.filter (fun e => e.1 != target)).filter (fun e => e.1 != src)) := by
  have hl : ∃ g, List.lookup src ((target, written fs target out f.mode) ::
      fs.filter (fun e => e.1 != target)) = some g := by
    rw [List.lookup_cons]
    cases hb : (src == target) with
    | true => exact ⟨_, rfl⟩
    | false =>
      have hts : ¬ src = target := by simpa using hb
      exact ⟨f, by rw [lookup_filter_bne, if_neg hts, hf]⟩
  obtain ⟨g, hg⟩ := hl
  simp only [handle, Stat, hf, hsize, ReadFile, hout, writeFile, MkdirAll, WriteFile, Remove,
    if_true]
  change Result.ofExcept (match List.lookup src ((target, written fs target out f.mode) ::
      fs.filter (fun e => e.1 != target)) with
    | some _ => Except.ok (List.filter (fun e => e.1 != src)
        ((target, written fs target out f.mode) :: fs.filter (fun e => e.1 != target)))
    | none => Except.error ("remove " ++ src ++ ": no such file or directory")) = _
  rw [hg]
  rfl

theorem handle_small (fs : FS) (src target : String) (handlers : List Handler) (f : File)
    (out : Bytes) (hf : fs.lookup src = some f) (hsize : f.size < 1024 * 20)
    (hout : applyHandlers handlers f.content = some out) :
    ∃ fs2, handle fs src target handlers = .ok fs2 ∧
      (target ≠ src → (fs2.lookup target).map File.content = some out) ∧
      fs2.lookup src = none := by
  refine ⟨_, handle_small_eq fs src target handlers f out hf hsize hout, ?_, ?_⟩
  · intro hts
    have hb : (target == target) = true := by simp
    rw [lookup_filter_bne, if_neg hts, List.lookup_cons, hb]
    rfl
  · rw [lookup_filter_bne, if_pos rfl]

/-! ## Lemmas: the handler chain -/

theorem addHandler_eq (rx : Regexp2) (acc : List Handler) (m : HandlerModel) :
    addHandler rx acc m = acc ++ (handlerOf rx m).toList := by
  obtain ⟨ty, args⟩ := m
  unfold addHandler handlerOf
  match args with
  | [] => simp
  | [_] => simp
  | [a, b] =>
    by_cases h1 : ty = "regexp"
    · simp [h1]
    · by_cases h2 : ty = "replace"
      · simp [h2]
      · simp [h1, h2]
  | _ :: _ :: _ :: _ => simp

theorem foldl_addHandler (rx : Regexp2) :
    ∀ (pf : List HandlerModel) (acc : List Handler),
      pf.foldl (addHandler rx) acc = acc ++ pf.filterMap (handlerOf rx) := by
  intro pf
  induction pf with
  | nil => intro acc; simp
  | cons m rest ih =>
    intro acc
    rw [List.foldl_cons, ih, addHandler_eq, List.filterMap_cons]
    cases handlerOf rx m <;> simp

theorem applyHandlers_eq_foldlM :
    ∀ (hs : List Handler) (s : Bytes),
      applyHandlers hs s = hs.foldlM (fun acc h => h acc) s := by
  intro hs
  induction hs with
  | nil => intro s; rfl
  | cons h rest ih =>
    intro s
    rw [applyHandlers, List.foldlM_cons]
    cases h s with
    | none => rfl
    | some s1 => exact ih s1

theorem Walk_log {σ : Type} (cb : String → Option FileInfo → Option String → Decision)
    (hdl : σ → String → String → Result σ) (root : String) (n : Node) (st : WalkState σ) :
    (Walk cb hdl root n st).2 = (walk cb hdl root [] n st).2 := by
  unfold Walk
  generalize walk cb hdl root [] n st = r
  obtain ⟨status, st1⟩ := r
  cases status <;> rfl

theorem walkNames_git_file {σ : Type} (rx : Regexp2) (opt : Options)
    (hdl : σ → String → String → Result σ) (path : String) (rel : List String)
    (post : List Node) (st : WalkState σ) :
    walkNames (walkFn rx opt) hdl path rel (Node.file ".git" :: post) st = (.skipDir, st) := by
  rw [walkNames, walk]
  simp [invoke, Node.name, walkFn_git, Node.isDir, Node.lstatFails]

theorem walkNames_until_git {σ : Type} (rx : Regexp2) (opt : Options)
    (hdl : σ → String → String → Result σ) (path : String) (rel : List String)
    (pre post : List Node) (st : WalkState σ) :
    walkNames (walkFn rx opt) hdl path rel (pre ++ Node.file ".git" :: post) st =
      match walkNames (walkFn rx opt) hdl path rel pre st with
      | (.nil, st1) => (.skipDir, st1)
      | r => r := by
  rw [walkNames_append]
  generalize walkNames (walkFn rx opt) hdl path rel pre st = r
  obtain ⟨status, st1⟩ := r
  cases status with
  | nil => exact walkNames_git_file rx opt hdl path rel post st1
  | skipDir => rfl
  | error e => rfl
  | panic => rfl

theorem dropLeading_append (x : List Char) :
    ∀ p : List Char, dropLeading (p ++ x) p = some x := by
  intro p
  induction p with
  | nil => cases x <;> rfl
  | cons c p ih => simp [dropLeading, ih]

theorem TrimPrefix_append (p x : String) : TrimPrefix (p ++ x) p = x := by
  unfold TrimPrefix
  rw [String.data_append, dropLeading_append]

theorem foldl_Join_append (p : String) :
    ∀ (rest : List String) (q : String), rest.foldl Join (p ++ q) = p ++ rest.foldl Join q := by
  intro rest
  induction rest with
  | nil => intro q; rfl
  | cons n rest ih =>
    intro q
    have e : Join (p ++ q) n = p ++ Join q n := by
      simp only [Join, String.append_assoc]
    rw [List.foldl_cons, List.foldl_cons, e, ih]

theorem target_of_rel (a : String) (rest : List String) :
    TrimPrefix ((a :: rest).foldl Join temp) (temp ++ "/") = rest.foldl Join a := by
  have e : Join temp a = (temp ++ "/") ++ a := rfl
  rw [List.foldl_cons, e, foldl_Join_append, TrimPrefix_append]

theorem handle_other_paths (fs fs2 : FS) (src target : String) (handlers : List Handler)
    (h : handle fs src target handlers = .ok fs2) (p : String) (hp : p ≠ target) (g : File)
    (hg : fs2.lookup p = some g) : fs.lookup p = some g := by
  have hb : (p == target) = false := by simpa using hp
  cases hf : fs.lookup src with
  | none => simp [handle, Stat, hf] at h
  | some f =>
    by_cases hsize : f.size < 1024 * 20
    · cases hout : applyHandlers handlers f.content with
      | none =>
        rw [handle_small_panic fs src target handlers f hf hsize hout] at h
        cases h
      | some out =>
        rw [handle_small_eq fs src target handlers f out hf hsize hout] at h
        injection h with h
        subst h
        rw [lookup_filter_bne] at hg
        by_cases hps : p = src
        · rw [if_pos hps] at hg; cases hg
        · rw [if_neg hps, List.lookup_cons, hb] at hg
          change List.lookup p (List.filter (fun e => e.1 != target) fs) = some g at hg
          rw [lookup_filter_bne, if_neg hp] at hg
          exact hg
    · rw [handle_large fs src target handlers f hf (Nat.not_lt.mp hsize)] at h
      injection h with h
      subst h
      rw [List.lookup_cons, hb] at hg
      change List.lookup p (List.filter (fun e => e.1 != src && e.1 != target) fs) = some g at hg
      rw [← List.filter_filter, lookup_filter_bne] at hg
      by_cases hps : p = src
      · rw [if_pos hps] at hg; cases hg
      · rw [if_neg hps, lookup_filter_bne, if_neg hp] at hg
        exact hg

theorem runWalk_good (rx : Regexp2) (opt : Options) (root : Node) (fs : FS) :
    ∀ d ∈ (runWalk rx opt root fs).2.log, GoodDispatch rx opt temp d := by
  intro d hd
  unfold runWalk at hd
  rw [Walk_log] at hd
  exact walk_good rx opt
    (fun fs src target => handle fs src target (buildHandlers rx opt)) temp root temp []
    { fs := fs, log := [] } rfl (fun _ => List.not_mem_nil _)
    (fun d hd => absurd hd (List.not_mem_nil _)) d hd

theorem scanPatterns_ne_panic (rx : Regexp2) (path : String) :
    ∀ ps : List String, (∀ s ∈ ps, rx.compiles s = true) →
      scanPatterns rx path ps ≠ .panic := by
  intro ps
  induction ps with
  | nil => intro _ h; cases h
  | cons a rest ih =>
    intro hc
    have ha := hc a (List.mem_cons_self _ _)
    simp only [scanPatterns, ha, if_true]
    by_cases hma : rx.matchString a path = true
    · simp [hma]
    · simp only [hma]
      exact ih (fun t ht => hc t (List.mem_cons_of_mem _ ht))

theorem findExclude_found (rx : Regexp2) (opt : Options) (path : String) (info : FileInfo)
    (hc : ∀ s ∈ opt.Exclude, rx.compiles s = true)
    (hm : ∃ s ∈ opt.Exclude, rx.matchString s path = true) :
    findExclude rx opt path info = if info.isDir then .skipDir else .retNil := by
  unfold findExclude
  rw [scanPatterns_found rx path opt.Exclude hc hm]

theorem walkFn_dir (rx : Regexp2) (opt : Options) (path : String) (info : FileInfo)
    (err : Option String) (hname : info.name ≠ ".git") (hdir : info.isDir = true) :
    walkFn rx opt path (some info) err = findExclude rx opt path info := by
  simp [walkFn, hname, hdir]

theorem walkFn_congr (rx rx1 : Regexp2) (opt : Options) (path : String)
    (info : Option FileInfo) (err err1 : Option String)
    (h : ∀ s ∈ opt.Include ++ opt.Exclude, rx.compiles s = rx1.compiles s ∧
      rx.matchString s path = rx1.matchString s path) :
    walkFn rx opt path info err = walkFn rx1 opt path info err1 := by
  have hi := scanPatterns_congr rx rx1 path opt.Include
    (fun s hs => h s (List.mem_append_left _ hs))
  have he := scanPatterns_congr rx rx1 path opt.Exclude
    (fun s hs => h s (List.mem_append_right _ hs))
  cases info with
  | none => rfl
  | some info => simp only [walkFn, findExclude, hi, he]

/-! ## The claims -/

/-- Claim C5: whatever the tree, the include and exclude lists and the regexp
engine, every call of `handle` made by the walk of `Run` is for a path none of
whose segments (`temp` and the names below it) is `.git`; its source is that
walked path, its target is the path made of the names below `temp`, and `handle`
creates no file at any other path than its target. The callback answers
`filepath.SkipDir` for an entry named `.git` without evaluating any pattern, and
the walk of a directory named `.git` visits nothing below it. -/
theorem C5_git_never_dispatched (rx : Regexp2) (opt : Options) (root : Node) (fs : FS) :
    (∀ d ∈ (runWalk rx opt root fs).2.log,
        ".git" ∉ temp :: d.rel ∧ d.src = d.rel.foldl Join temp ∧
          d.target = TrimPrefix d.src (temp ++ "/") ∧
          (∀ (a : String) (rest : List String), d.rel = a :: rest →
            d.target = rest.foldl Join a)) ∧
      (∀ (fs1 fs2 : FS) (src target p : String) (g : File),
        handle fs1 src target (buildHandlers rx opt) = .ok fs2 → p ≠ target →
        fs2.lookup p = some g → fs1.lookup p = some g) ∧
      (∀ (path : String) (isDir : Bool) (err : Option String),
        walkFn rx opt path (some ⟨".git", isDir⟩) err = .skipDir) ∧
      (∀ (path : String) (rel : List String) (children : List Node) (st : WalkState FS),
        walk (walkFn rx opt) (fun fs src target => handle fs src target (buildHandlers rx opt))
          path rel (.dir ".git" children) st = (.skipDir, st)) := by
  refine ⟨?_, ?_, fun path isDir err => walkFn_git rx opt path isDir err, ?_⟩
  · intro d hd
    have h := runWalk_good rx opt root fs d hd
    refine ⟨?_, h.2.1, h.2.2.1, ?_⟩
    · intro hmem
      rcases List.mem_cons.mp hmem with h1 | h1
      · exact absurd h1 (by decide)
      · exact h.1 h1
    · intro a rest hrel
      rw [h.2.2.1, h.2.1, hrel, target_of_rel]
  · intro fs1 fs2 src target p g h hp hg
    exact handle_other_paths fs1 fs2 src target _ h p hp g hg
  · intro path rel children st
    rw [walk]
    simp [invoke, walkFn_git]

/-- Witness for C5: a working copy with a `.git` directory and a file beside it. -/
theorem C5_git_never_dispatched_witness :
    (⟨["main.go"], "temp/main.go", "main.go"⟩ : Dispatch) ∈
        (runWalk rxLit {} (.dir "temp" [.dir ".git" [.file "config"], .file "main.go"])
          [("temp/.git/config", ⟨1, 420, [97]⟩), ("temp/main.go", ⟨1, 420, [98]⟩)]).2.log ∧
      (".git" ∉ temp :: ["main.go"] ∧ "temp/main.go" = ["main.go"].foldl Join temp ∧
        "main.go" = TrimPrefix "temp/main.go" (temp ++ "/") ∧
        (∀ (a : String) (rest : List String), ["main.go"] = a :: rest →
          "main.go" = rest.foldl Join a)) :=
  ⟨by decide,
    (C5_git_never_dispatched rxLit {} (.dir "temp" [.dir ".git" [.file "config"], .file "main.go"])
      [("temp/.git/config", ⟨1, 420, [97]⟩), ("temp/main.go", ⟨1, 420, [98]⟩)]).1
      ⟨["main.go"], "temp/main.go", "main.go"⟩ (by decide)⟩

/-- Claim C10: the callback answers `filepath.SkipDir` for an entry named `.git`
whether it is a directory or a regular file; when a directory lists a regular
file `.git`, the loop over the listing stops there with `SkipDir`, so the walk of
that directory is the walk of the entries before `.git` and nothing that comes
after `.git` in the listing is visited or dispatched, whatever the include and
exclude lists are. -/
theorem C10_git_file_skips_later_siblings {σ : Type} (rx : Regexp2) (opt : Options)
    (hdl : σ → String → String → Result σ) (path : String) (rel : List String)
    (name : String) (pre post : List Node) (st : WalkState σ) (err : Option String) :
    walkFn rx opt (Join path ".git") (some ⟨".git", false⟩) err = .skipDir ∧
      walkFn rx opt (Join path ".git") (some ⟨".git", true⟩) err = .skipDir ∧
      walkNames (walkFn rx opt) hdl path rel (pre ++ Node.file ".git" :: post) st =
        (match walkNames (walkFn rx opt) hdl path rel pre st with
          | (.nil, st1) => (.skipDir, st1)
          | r => r) ∧
      (walkNames (walkFn rx opt) hdl path rel (pre ++ Node.file ".git" :: post) st).2 =
        (walkNames (walkFn rx opt) hdl path rel pre st).2 ∧
      walk (walkFn rx opt) hdl path rel (.dir name (pre ++ Node.file ".git" :: post)) st =
        walk (walkFn rx opt) hdl path rel (.dir name (pre ++ [Node.file ".git"])) st := by
  refine ⟨walkFn_git _ _ _ _ _, walkFn_git _ _ _ _ _,
    walkNames_until_git rx opt hdl path rel pre post st, ?_, ?_⟩
  · rw [walkNames_until_git]
    generalize walkNames (walkFn rx opt) hdl path rel pre st = r
    obtain ⟨status, st1⟩ := r
    cases status <;> rfl
  · rw [walk, walk]
    generalize invoke (walkFn rx opt) hdl path rel (some ⟨name, true⟩) none st = r
    obtain ⟨status, st1⟩ := r
    cases status with
    | nil =>
      dsimp only
      rw [walkNames_until_git, walkNames_until_git]
    | skipDir => rfl
    | error e => rfl
    | panic => rfl

/-- Claim C9: for a non-empty `old`, the handler `sReplace(old, new)` replaces
the occurrences of `old` from left to right without overlap and keeps all other
bytes in order. Content in which `old` does not occur is returned as it is;
content whose leftmost occurrence of `old` comes right after `pre` becomes `pre`,
then `new`, then the result of the handler on what follows that occurrence; so
content cut at its successive leftmost occurrences into `g1 old g2 old ... last`
becomes `g1 new g2 new ... last`, and every content has such a cut. -/
theorem C9_sReplace_literal (old new : String) (hold : old ≠ "") (s : Bytes) :
    (¬ bytesOf old <:+: s → sReplace old new s = some s) ∧
      (∀ pre post : Bytes, s = pre ++ bytesOf old ++ post →
        ¬ bytesOf old <:+: pre ++ (bytesOf old).dropLast →
        ∃ r, sReplace old new post = some r ∧
          sReplace old new s = some (pre ++ bytesOf new ++ r)) ∧
      (∀ (gaps : List Bytes) (last : Bytes),
        (∀ g ∈ gaps, ¬ bytesOf old <:+: g ++ (bytesOf old).dropLast) →
        ¬ bytesOf old <:+: last →
        s = gaps.flatMap (fun g => g ++ bytesOf old) ++ last →
        sReplace old new s = some (gaps.flatMap (fun g => g ++ bytesOf new) ++ last)) ∧
      (∃ (gaps : List Bytes) (last : Bytes),
        (∀ g ∈ gaps, ¬ bytesOf old <:+: g ++ (bytesOf old).dropLast) ∧
        ¬ bytesOf old <:+: last ∧
        s = gaps.flatMap (fun g => g ++ bytesOf old) ++ last) := by
  have hb := bytesOf_ne_nil hold
  refine ⟨?_, ?_, ?_, gaps_exist hb s.length s (le_refl _)⟩
  · intro h
    simp only [sReplace]
    rw [ReplaceAll_absent hb (bytesOf new) s h]
  · intro pre post hs h
    refine ⟨ReplaceAll post (bytesOf old) (bytesOf new), rfl, ?_⟩
    simp only [sReplace]
    rw [hs, ReplaceAll_first hb (bytesOf new) pre post h]
  · intro gaps last hg hl hs
    simp only [sReplace]
    rw [hs, ReplaceAll_gaps hb (bytesOf new) last hl gaps hg]

/-- Witness for C9: `foo bar foo` with `Literal("foo","baz")` gives `baz bar baz`,
and `bar`, where `foo` does not occur, is unchanged. -/
theorem C9_sReplace_literal_witness :
    "foo" ≠ "" ∧ ¬ bytesOf "foo" <:+: bytesOf "bar" ∧
      sReplace "foo" "baz" (bytesOf "bar") = some (bytesOf "bar") ∧
      sReplace "foo" "baz" (bytesOf "foo bar foo") = some (bytesOf "baz bar baz") ∧
      (∃ r, sReplace "foo" "baz" (bytesOf " bar foo") = some r ∧
        sReplace "foo" "baz" (bytesOf "foo bar foo") = some ([] ++ bytesOf "baz" ++ r)) :=
  ⟨by decide, by decide,
    (C9_sReplace_literal "foo" "baz" (by decide) (bytesOf "bar")).1 (by decide),
    by decide,
    (C9_sReplace_literal "foo" "baz" (by decide) (bytesOf "foo bar foo")).2.1
      [] (bytesOf " bar foo") (by decide) (by decide)⟩

/-- Claim C6: `handle` runs the handler chain on a file exactly when its size is
below 20480 bytes. Below the threshold the content written at the target is the
chain applied to the source content (and a panic of a handler is a panic of
`handle`); at or above it `handle` is `moveFile`, the file found at the target is
the source file, bytes untouched, whatever the handlers are. A handler that
always panics makes `handle` panic if and only if the size is below 20480. -/
theorem C6_size_routing (fs : FS) (src target : String) (handlers : List Handler) (f : File)
    (hf : fs.lookup src = some f) :
    (f.size < 20480 →
        (applyHandlers handlers f.content = none →
          handle fs src target handlers = .panic) ∧
        (∀ out, applyHandlers handlers f.content = some out →
          ∃ fs2, handle fs src target handlers = .ok fs2 ∧
            (target ≠ src → (fs2.lookup target).map File.content = some out) ∧
            fs2.lookup src = none)) ∧
      (20480 ≤ f.size →
        ∃ fs2, handle fs src target handlers = .ok fs2 ∧
          fs2.lookup target = some f ∧
          handle fs src target handlers = Result.ofExcept (moveFile fs src target) ∧
          handle fs src target handlers = handle fs src target []) ∧
      (handle fs src target [fun _ => none] = .panic ↔ f.size < 20480) := by
  refine ⟨?_, ?_, ?_⟩
  · intro hsize
    exact ⟨handle_small_panic fs src target handlers f hf hsize,
      fun out hout => handle_small fs src target handlers f out hf hsize hout⟩
  · intro hsize
    refine ⟨_, handle_large fs src target handlers f hf hsize, ?_, ?_, ?_⟩
    · simp
    · rw [handle_large fs src target handlers f hf hsize]
      simp [moveFile, MkdirAll, Rename, hf, Result.ofExcept]
    · rw [handle_large fs src target handlers f hf hsize,
        handle_large fs src target [] f hf hsize]
  · constructor
    · intro hp
      by_contra hge
      rw [handle_large fs src target _ f hf (Nat.not_lt.mp hge)] at hp
      cases hp
    · intro hsize
      exact handle_small_panic fs src target _ f hf hsize rfl

/-- Witness for C6: a file of 20479 bytes is transformed, a file of exactly 20480
bytes is relocated untouched. -/
theorem C6_size_routing_witness :
    handle [("temp/a.txt", ⟨20479, 420, bytesOf "foo"⟩)] "temp/a.txt" "a.txt"
        [sReplace "foo" "baz"] = .ok [("a.txt", ⟨3, 420, bytesOf "baz"⟩)] ∧
      handle [("temp/a.txt", ⟨20480, 420, bytesOf "foo"⟩)] "temp/a.txt" "a.txt"
        [sReplace "foo" "baz"] = .ok [("a.txt", ⟨20480, 420, bytesOf "foo"⟩)] ∧
      (handle [("temp/a.txt", ⟨20479, 420, bytesOf "foo"⟩)] "temp/a.txt" "a.txt"
        [fun _ => none] = .panic ↔ 20479 < 20480) ∧
      (handle [("temp/a.txt", ⟨20480, 420, bytesOf "foo"⟩)] "temp/a.txt" "a.txt"
        [fun _ => none] = .panic ↔ 20480 < 20480) :=
  ⟨by decide, by decide,
    (C6_size_routing [("temp/a.txt", ⟨20479, 420, bytesOf "foo"⟩)] "temp/a.txt" "a.txt"
      [fun _ => none] ⟨20479, 420, bytesOf "foo"⟩ (by decide)).2.2,
    (C6_size_routing [("temp/a.txt", ⟨20480, 420, bytesOf "foo"⟩)] "temp/a.txt" "a.txt"
      [fun _ => none] ⟨20480, 420, bytesOf "foo"⟩ (by decide)).2.2⟩

/-- Claim C7: the chain that `Run` builds from `process_file` is, in declared
order, exactly the handlers of the entries whose type is `regexp` or `replace`
and whose args have length 2 (every other entry adds nothing), and on a file
below the size threshold `handle` writes the left fold of that chain over the
content, each handler receiving the output of the one before it. -/
theorem C7_handler_chain (rx : Regexp2) (opt : Options) (fs : FS) (src target : String)
    (f : File) (hf : fs.lookup src = some f) (hsize : f.size < 20480) :
    buildHandlers rx opt = opt.ProcessFile.filterMap (handlerOf rx) ∧
      (∀ m : HandlerModel, (handlerOf rx m).isSome = true ↔
        ((m.Type' = "regexp" ∨ m.Type' = "replace") ∧ m.Args.length = 2)) ∧
      (∀ (ty a b : String),
        (handlerOf rx ⟨"regexp", [a, b]⟩ = some (rReplace rx a b)) ∧
        (handlerOf rx ⟨"replace", [a, b]⟩ = some (sReplace a b)) ∧
        (ty ≠ "regexp" → ty ≠ "replace" → buildHandlers rx { ProcessFile := [⟨ty, [a, b]⟩] } = [])) ∧
      (match (opt.ProcessFile.filterMap (handlerOf rx)).foldlM (fun acc h => h acc) f.content with
        | none => handle fs src target (buildHandlers rx opt) = .panic
        | some out =>
          ∃ fs2, handle fs src target (buildHandlers rx opt) = .ok fs2 ∧
            (target ≠ src → (fs2.lookup target).map File.content = some out)) := by
  have hbuild : buildHandlers rx opt = opt.ProcessFile.filterMap (handlerOf rx) := by
    unfold buildHandlers
    rw [foldl_addHandler]
    rfl
  refine ⟨hbuild, ?_, ?_, ?_⟩
  · intro m
    obtain ⟨ty, args⟩ := m
    unfold handlerOf
    match args with
    | [] => simp
    | [_] => simp
    | [a, b] =>
      by_cases h1 : ty = "regexp"
      · simp [h1]
      · by_cases h2 : ty = "replace"
        · simp [h2]
        · simp [h1, h2]
    | _ :: _ :: _ :: _ => simp
  · intro ty a b
    refine ⟨by simp [handlerOf], by simp [handlerOf], ?_⟩
    intro h1 h2
    simp [buildHandlers, addHandler, h1, h2]
  · rw [← hbuild, ← applyHandlers_eq_foldlM]
    cases hout : applyHandlers (buildHandlers rx opt) f.content with
    | none => exact handle_small_panic fs src target _ f hf hsize hout
    | some out =>
      obtain ⟨fs2, h1, h2, _⟩ := handle_small fs src target _ f out hf hsize hout
      exact ⟨fs2, h1, h2⟩

/-- Witness for C7: `[regexp("a","b"), replace("b","c")]` on `a` yields `c`, and
`[{type: replace, args: ["x"]}]` builds an empty chain that returns the content
unchanged. -/
theorem C7_handler_chain_witness :
    handle [("temp/a.txt", ⟨1, 420, bytesOf "a"⟩)] "temp/a.txt" "a.txt"
        (buildHandlers rxLit { ProcessFile := [⟨"regexp", ["a", "b"]⟩, ⟨"replace", ["b", "c"]⟩] })
        = .ok [("a.txt", ⟨1, 420, bytesOf "c"⟩)] ∧
      handle [("temp/a.txt", ⟨1, 420, bytesOf "x"⟩)] "temp/a.txt" "a.txt"
        (buildHandlers rxLit { ProcessFile := [⟨"replace", ["x"]⟩] })
        = .ok [("a.txt", ⟨1, 420, bytesOf "x"⟩)] ∧
      buildHandlers rxLit { ProcessFile := [⟨"replace", ["x"]⟩] } =
        List.filterMap (handlerOf rxLit) [⟨"replace", ["x"]⟩] ∧
      List.filterMap (handlerOf rxLit) [⟨"replace", ["x"]⟩] = [] :=
  ⟨by decide, by decide,
    (C7_handler_chain rxLit { ProcessFile := [⟨"replace", ["x"]⟩] }
      [("temp/a.txt", ⟨1, 420, bytesOf "x"⟩)] "temp/a.txt" "a.txt" ⟨1, 420, bytesOf "x"⟩
      (by decide) (by decide)).1,
    by simp [handlerOf]⟩

/-- Counterexample to C1 as stated: with include `\\.go$`, the directory
`temp/src` matches no include pattern, yet the callback returns nil for it (not
`filepath.SkipDir`) and its descendant `temp/src/main.go` is dispatched; and on a
file, an include pattern that fails to compile makes the callback panic instead
of returning nil. -/
theorem C1_counterexample :
    rxLit.compiles "\\.go$" = true ∧ rxLit.matchString "\\.go$" "temp/src" = false ∧
      walkFn rxLit { Include := ["\\.go$"] } "temp/src" (some ⟨"src", true⟩) none = .retNil ∧
      (runWalk rxLit { Include := ["\\.go$"] } (.dir "temp" [.dir "src" [.file "main.go"]])
          [("temp/src/main.go", ⟨3, 420, [97, 98, 99]⟩)]).2.log =
        [⟨["src", "main.go"], "temp/src/main.go", "src/main.go"⟩] ∧
      rxLit.matchString "(" "temp/a.txt" = false ∧
      walkFn rxLit { Include := ["("] } "temp/a.txt" (some ⟨"a.txt", false⟩) none = .panic := by
  decide

/-- Claim C1, amended: for a file not named `.git`, when the include list is
non-empty, every include pattern compiles and none matches the walked path, the
callback returns nil without calling `handle`; a directory not named `.git` never
goes through the include step, its decision is that of the exclude step alone and
does not depend on the include list; and every file the walk dispatches matches
some include pattern when the include list is non-empty. -/
theorem C1_include_step (rx : Regexp2) (opt : Options) (path : String) (info : FileInfo)
    (err : Option String) (hname : info.name ≠ ".git") :
    (info.isDir = false → opt.Include ≠ [] →
        (∀ s ∈ opt.Include, rx.compiles s = true ∧ rx.matchString s path = false) →
        walkFn rx opt path (some info) err = .retNil) ∧
      (info.isDir = true →
        walkFn rx opt path (some info) err = findExclude rx opt path info ∧
        walkFn rx opt path (some info) err =
          walkFn rx { opt with Include := [] } path (some info) err) ∧
      (∀ (root : Node) (fs : FS), ∀ d ∈ (runWalk rx opt root fs).2.log,
        opt.Include ≠ [] → ∃ s ∈ opt.Include, rx.matchString s d.src = true) := by
  refine ⟨?_, ?_, ?_⟩
  · intro hdir hne hnone
    have hlen : 0 < opt.Include.length := List.length_pos.mpr hne
    simp [walkFn, hname, hdir, hlen, scanPatterns_notFound rx path opt.Include hnone]
  · intro hdir
    refine ⟨walkFn_dir rx opt path info err hname hdir, ?_⟩
    rw [walkFn_dir rx opt path info err hname hdir,
      walkFn_dir rx { opt with Include := [] } path info err hname hdir]
    rfl
  · intro root fs d hd
    exact (runWalk_good rx opt root fs d hd).2.2.2.1

/-- Witness for C1: `temp/readme.md` under include `\\.go$`. -/
theorem C1_include_step_witness :
    ("readme.md" ≠ ".git" ∧ ["\\.go$"] ≠ [] ∧
        (∀ s ∈ ["\\.go$"], rxLit.compiles s = true ∧
          rxLit.matchString s "temp/readme.md" = false)) ∧
      walkFn rxLit { Include := ["\\.go$"] } "temp/readme.md"
        (some ⟨"readme.md", false⟩) none = .retNil :=
  ⟨⟨by decide, by decide, by decide⟩,
    (C1_include_step rxLit { Include := ["\\.go$"] } "temp/readme.md" ⟨"readme.md", false⟩ none
      (by decide)).1 rfl (by decide) (by decide)⟩

/-- Counterexample to C2 as stated: the include pattern `^main\\.go$` matches the
relative path `main.go` but the callback tests the walked path `temp/main.go`, so
the top-level file is not selected; and the exclude pattern `^temp$`, which
matches only the name of the root directory, prunes the whole walk. -/
theorem C2_counterexample :
    TrimPrefix "temp/main.go" (temp ++ "/") = "main.go" ∧
      rxLit.matchString "^main\\.go$" "main.go" = true ∧
      walkFn rxLit { Include := ["^main\\.go$"] } "temp/main.go"
        (some ⟨"main.go", false⟩) none = .retNil ∧
      (runWalk rxLit { Include := ["^main\\.go$"] } (.dir "temp" [.file "main.go"])
          [("temp/main.go", ⟨1, 420, [97]⟩)]).2.log = [] ∧
      rxLit.matchString "^temp$" "main.go" = false ∧
      (runWalk rxLit { Exclude := ["^temp$"] } (.dir "temp" [.file "main.go"])
          [("temp/main.go", ⟨1, 420, [97]⟩)]).2.log = [] ∧
      (runWalk rxLit { } (.dir "temp" [.file "main.go"])
          [("temp/main.go", ⟨1, 420, [97]⟩)]).2.log =
        [⟨["main.go"], "temp/main.go", "main.go"⟩] := by
  decide

/-- Claim C2, amended: the patterns are tested against the walked path, root
prefix included (`temp` for the root, `temp/...` below it): the decision depends
on the regexp engine only through what it answers for the patterns on that
walked path, and not on the `err` argument; the include pattern
`^temp/main\\.go$` selects the top-level `main.go`, whose target is `main.go`; and
when every exclude pattern compiles and one matches the root path `temp`, the
walk is pruned at the root and dispatches nothing. -/
theorem C2_walked_path (rx rx1 : Regexp2) (opt : Options) (path : String)
    (info : Option FileInfo) (err err1 : Option String) :
    ((∀ s ∈ opt.Include ++ opt.Exclude, rx.compiles s = rx1.compiles s ∧
          rx.matchString s path = rx1.matchString s path) →
        walkFn rx opt path info err = walkFn rx1 opt path info err1) ∧
      walkFn rxLit { Include := ["^temp/main\\.go$"] } "temp/main.go"
        (some ⟨"main.go", false⟩) none = .handle "temp/main.go" "main.go" ∧
      (∀ (σ : Type) (hdl : σ → String → String → Result σ) (children : List Node)
        (st : WalkState σ), (∀ s ∈ opt.Exclude, rx.compiles s = true) →
        (∃ s ∈ opt.Exclude, rx.matchString s temp = true) →
        Walk (walkFn rx opt) hdl temp (.dir temp children) st = (.nil, st)) := by
  refine ⟨walkFn_congr rx rx1 opt path info err err1, by decide, ?_⟩
  intro σ hdl children st hc hm
  have hfn : walkFn rx opt temp (some ⟨temp, true⟩) none = .skipDir := by
    rw [walkFn_dir rx opt temp ⟨temp, true⟩ none (by decide) rfl,
      findExclude_found rx opt temp ⟨temp, true⟩ hc hm]
    rfl
  simp [Walk, walk, invoke, hfn]

/-- Witness for C2: two engines that agree on the walked path, and the exclude
pattern `^temp$` on a working copy with one file. -/
theorem C2_walked_path_witness :
    (∀ s ∈ ["^temp/main\\.go$"] ++ ([] : List String), rxLit.compiles s = rxLit.compiles s ∧
        rxLit.matchString s "temp/main.go" = rxLit.matchString s "temp/main.go") ∧
      walkFn rxLit { Include := ["^temp/main\\.go$"] } "temp/main.go"
          (some ⟨"main.go", false⟩) (some "e") =
        walkFn rxLit { Include := ["^temp/main\\.go$"] } "temp/main.go"
          (some ⟨"main.go", false⟩) none ∧
      ((∀ s ∈ ["^temp$"], rxLit.compiles s = true) ∧
        (∃ s ∈ ["^temp$"], rxLit.matchString s temp = true)) ∧
      Walk (walkFn rxLit { Exclude := ["^temp$"] })
          (fun fs src target => handle fs src target []) temp
          (.dir temp [.file "main.go"]) { fs := [("temp/main.go", ⟨1, 420, [97]⟩)], log := [] } =
        (.nil, { fs := [("temp/main.go", ⟨1, 420, [97]⟩)], log := [] }) :=
  ⟨fun _ _ => ⟨rfl, rfl⟩,
    (C2_walked_path rxLit rxLit { Include := ["^temp/main\\.go$"] } "temp/main.go"
      (some ⟨"main.go", false⟩) (some "e") none).1 (fun _ _ => ⟨rfl, rfl⟩),
    ⟨by decide, by decide⟩,
    (C2_walked_path rxLit rxLit { Exclude := ["^temp$"] } "temp/main.go"
      (some ⟨"main.go", false⟩) none none).2.2 FS (fun fs src target => handle fs src target [])
      [.file "main.go"] { fs := [("temp/main.go", ⟨1, 420, [97]⟩)], log := [] }
      (by decide) (by decide)⟩

/-- Counterexample to C3 as stated: a regular file named `.git` whose path
matches an exclude pattern gets `filepath.SkipDir`, not a plain nil; and when an
exclude pattern that fails to compile comes before the one that matches, the
callback panics instead of skipping the entry. -/
theorem C3_counterexample :
    rxLit.matchString "sub/" "temp/sub/.git" = true ∧
      walkFn rxLit { Exclude := ["sub/"] } "temp/sub/.git" (some ⟨".git", false⟩) none
        = .skipDir ∧
      rxLit.matchString "vendor/" "temp/vendor/lib.go" = true ∧
      walkFn rxLit { Exclude := ["(", "vendor/"] } "temp/vendor/lib.go"
        (some ⟨"lib.go", false⟩) none = .panic := by
  decide

/-- Claim C3, amended: for an entry not named `.git`, when every include and
exclude pattern compiles and some exclude pattern matches the walked path, the
callback returns `filepath.SkipDir` for a directory and nil without calling
`handle` for a file, even when an include pattern also matches; for every entry
whatsoever, an exclude pattern that matches its path rules out a call of
`handle`, and no file the walk dispatches matches an exclude pattern. With files
`main.go`, `vendor/lib.go`, `readme.md`, include `\\.go$` and exclude `vendor/`,
the walk dispatches exactly `main.go`, the only file that leaves `temp`. -/
theorem C3_exclude_precedence (rx : Regexp2) (opt : Options) (path : String)
    (info : FileInfo) (err : Option String) :
    (info.name ≠ ".git" → (∀ s ∈ opt.Include ++ opt.Exclude, rx.compiles s = true) →
        (∃ s ∈ opt.Exclude, rx.matchString s path = true) →
        walkFn rx opt path (some info) err = if info.isDir then .skipDir else .retNil) ∧
      ((∃ s ∈ opt.Exclude, rx.matchString s path = true) →
        ∀ src target : String, walkFn rx opt path (some info) err ≠ .handle src target) ∧
      (∀ (root : Node) (fs : FS), ∀ d ∈ (runWalk rx opt root fs).2.log,
        ∀ s ∈ opt.Exclude, rx.matchString s d.src = false) ∧
      (runWalk rxLit { Include := ["\\.go$"], Exclude := ["vendor/"] }
          (.dir "temp" [.file "main.go", .file "readme.md", .dir "vendor" [.file "lib.go"]])
          [("temp/main.go", ⟨1, 420, [97]⟩), ("temp/readme.md", ⟨1, 420, [98]⟩),
            ("temp/vendor/lib.go", ⟨1, 420, [99]⟩)]).2.log =
        [⟨["main.go"], "temp/main.go", "main.go"⟩] ∧
      (runWalk rxLit { Include := ["\\.go$"], Exclude := ["vendor/"] }
          (.dir "temp" [.file "main.go", .file "readme.md", .dir "vendor" [.file "lib.go"]])
          [("temp/main.go", ⟨1, 420, [97]⟩), ("temp/readme.md", ⟨1, 420, [98]⟩),
            ("temp/vendor/lib.go", ⟨1, 420, [99]⟩)]).2.fs =
        [("main.go", ⟨1, 420, [97]⟩), ("temp/readme.md", ⟨1, 420, [98]⟩),
          ("temp/vendor/lib.go", ⟨1, 420, [99]⟩)] := by
  refine ⟨?_, ?_, ?_, by decide, by decide⟩
  · intro hname hc hm
    have hce : ∀ s ∈ opt.Exclude, rx.compiles s = true :=
      fun s hs => hc s (List.mem_append_right _ hs)
    have hci : ∀ s ∈ opt.Include, rx.compiles s = true :=
      fun s hs => hc s (List.mem_append_left _ hs)
    have hfe := findExclude_found rx opt path info hce hm
    cases hdir : info.isDir with
    | true => rw [walkFn_dir rx opt path info err hname hdir, hfe, hdir]
    | false =>
      have hnp := scanPatterns_ne_panic rx path opt.Include hci
      rw [hdir] at hfe
      unfold walkFn
      simp only [hname, if_false, hdir]
      split
      · cases hsc : scanPatterns rx path opt.Include with
        | panic => exact absurd hsc hnp
        | found => simpa using hfe
        | notFound => simp
      · simpa using hfe
  · intro hm src target h
    exact absurd ((walkFn_handle_inv rx opt path info err src target h).2.2.2.2.2)
      (by
        obtain ⟨s, hs, hms⟩ := hm
        intro hall
        rw [hall s hs] at hms
        cases hms)
  · intro root fs d hd
    exact (runWalk_good rx opt root fs d hd).2.2.2.2

/-- Witness for C3: `temp/vendor/lib.go` matches both the include pattern `\\.go$`
and the exclude pattern `vendor/`, and is skipped. -/
theorem C3_exclude_precedence_witness :
    ("lib.go" ≠ ".git" ∧
        (∀ s ∈ ["\\.go$"] ++ ["vendor/"], rxLit.compiles s = true) ∧
        (∃ s ∈ ["vendor/"], rxLit.matchString s "temp/vendor/lib.go" = true) ∧
        rxLit.matchString "\\.go$" "temp/vendor/lib.go" = true) ∧
      walkFn rxLit { Include := ["\\.go$"], Exclude := ["vendor/"] } "temp/vendor/lib.go"
        (some ⟨"lib.go", false⟩) none = .retNil :=
  ⟨⟨by decide, by decide, by decide, by decide⟩,
    (C3_exclude_precedence rxLit { Include := ["\\.go$"], Exclude := ["vendor/"] }
      "temp/vendor/lib.go" ⟨"lib.go", false⟩ none).1 (by decide) (by decide) (by decide)⟩

/-- Counterexample to C4 as stated: the include pattern `(` fails to compile; the
callback does not go on to the next pattern `\\.go$`, which matches
`temp/main.go`, but panics, and the walk of `Run` ends in that panic with nothing
dispatched. -/
theorem C4_counterexample :
    rxLit.compiles "(" = false ∧ rxLit.matchString "\\.go$" "temp/main.go" = true ∧
      walkFn rxLit { Include := ["(", "\\.go$"] } "temp/main.go"
        (some ⟨"main.go", false⟩) none = .panic ∧
      walkFn rxLit { Exclude := ["(", "\\.md$"] } "temp/main.go"
        (some ⟨"main.go", false⟩) none = .panic ∧
      (runWalk rxLit { Include := ["(", "\\.go$"] } (.dir "temp" [.file "main.go"])
          [("temp/main.go", ⟨1, 420, [97]⟩)]).1 = .panic ∧
      (runWalk rxLit { Include := ["(", "\\.go$"] } (.dir "temp" [.file "main.go"])
          [("temp/main.go", ⟨1, 420, [97]⟩)]).2.log = [] := by
  decide

/-- Claim C4, amended: a pattern that fails to compile is not tolerated once the
loop reaches it. For an entry not named `.git`, when the patterns before it in
its list compile and do not match the walked path, a malformed include pattern
makes the callback panic on a file, and a malformed exclude pattern makes it
panic whenever the exclude loop runs (a directory, an empty include list, or an
include pattern that matched); the panic ends the walk at that entry. A pattern
that comes after the first match is never compiled. -/
theorem C4_malformed_pattern_panics (rx : Regexp2) (opt : Options) (path : String)
    (info : FileInfo) (err : Option String) (pre post : List String) (bad : String)
    (hname : info.name ≠ ".git") (hbad : rx.compiles bad = false)
    (hpre : ∀ s ∈ pre, rx.compiles s = true ∧ rx.matchString s path = false) :
    (info.isDir = false → opt.Include = pre ++ bad :: post →
        walkFn rx opt path (some info) err = .panic) ∧
      ((info.isDir = true ∨ opt.Include = [] ∨ scanPatterns rx path opt.Include = .found) →
        opt.Exclude = pre ++ bad :: post →
        walkFn rx opt path (some info) err = .panic) ∧
      (∀ (σ : Type) (hdl : σ → String → String → Result σ) (rel : List String)
        (st : WalkState σ), walkFn rx opt path (some info) err = .panic →
        invoke (walkFn rx opt) hdl path rel (some info) err st = (.panic, st)) ∧
      (∀ (σ : Type) (hdl : σ → String → String → Result σ) (dir : String) (rel : List String)
        (n : Node) (rest : List Node) (st : WalkState σ),
        (walk (walkFn rx opt) hdl (Join dir n.name) (rel ++ [n.name]) n st).1 = .panic →
        walkNames (walkFn rx opt) hdl dir rel (n :: rest) st =
          walk (walkFn rx opt) hdl (Join dir n.name) (rel ++ [n.name]) n st) ∧
      (∀ good : String, rx.compiles good = true → rx.matchString good path = true →
        scanPatterns rx path (pre ++ good :: bad :: post) = .found) := by
  have hscan := scanPatterns_panic rx path bad post hbad pre hpre
  refine ⟨?_, ?_, ?_, ?_, ?_⟩
  · intro hdir hinc
    have hlen : 0 < opt.Include.length := by rw [hinc]; simp
    simp [walkFn, hname, hdir, hlen, hinc, hscan]
  · intro hcase hexc
    have hfe : findExclude rx opt path info = .panic := by
      unfold findExclude
      rw [hexc, hscan]
    unfold walkFn
    simp only [hname, if_false]
    split
    · rename_i hcond
      rcases hcase with h | h | h
      · simp [h] at hcond
      · simp [h] at hcond
      · rw [h]; exact hfe
    · exact hfe
  · intro σ hdl rel st h
    simp [invoke, h]
  · intro σ hdl dir rel n rest st h
    rw [walkNames]
    generalize walk (walkFn rx opt) hdl (Join dir n.name) (rel ++ [n.name]) n st = r at h
    obtain ⟨status, st1⟩ := r
    cases status with
    | panic => rfl
    | nil => cases h
    | skipDir => cases h
    | error e => cases h
  · intro good hc hm
    have : ∀ l : List String,
        (∀ s ∈ l, rx.compiles s = true ∧ rx.matchString s path = false) →
        scanPatterns rx path (l ++ good :: bad :: post) = .found := by
      intro l
      induction l with
      | nil => intro _; simp [scanPatterns, hc, hm]
      | cons a rest ih =>
        intro h
        have ha := h a (List.mem_cons_self _ _)
        simp only [List.cons_append, scanPatterns, ha.1, ha.2, if_true]
        exact ih (fun s hs => h s (List.mem_cons_of_mem _ hs))
    exact this pre hpre

/-- Witness for C4: the include list `["\\.md$", "("]` on the file `temp/main.go`. -/
theorem C4_malformed_pattern_panics_witness :
    ("main.go" ≠ ".git" ∧ rxLit.compiles "(" = false ∧
        (∀ s ∈ ["\\.md$"], rxLit.compiles s = true ∧
          rxLit.matchString s "temp/main.go" = false)) ∧
      walkFn rxLit { Include := ["\\.md$", "("] } "temp/main.go"
        (some ⟨"main.go", false⟩) none = .panic :=
  ⟨⟨by decide, by decide, by decide⟩,
    (C4_malformed_pattern_panics rxLit { Include := ["\\.md$", "("] } "temp/main.go"
      ⟨"main.go", false⟩ none ["\\.md$"] [] "(" (by decide) (by decide) (by decide)).1
      rfl rfl⟩

/-- Claim C8, the code at the failing input: the callback never reads its `err`
argument. Called for the directory `temp/sub` with the error of a failed
listing it returns nil, so the walk goes on to the next entry `temp/z.txt`,
dispatches it and ends with a nil error, on which `breakError` does not exit;
called with a nil `info` (a failed `lstat`) it panics on `info.Name()`. -/
theorem C8_traversal_error_ignored :
    walkFn rxLit { } "temp/sub" (some ⟨"sub", true⟩)
        (some "open temp/sub: permission denied") = .retNil ∧
      (runWalk rxLit { }
          (.dir "temp" [.unreadable "sub" "open temp/sub: permission denied", .file "z.txt"])
          [("temp/z.txt", ⟨1, 420, [97]⟩)]).1 = .nil ∧
      (runWalk rxLit { }
          (.dir "temp" [.unreadable "sub" "open temp/sub: permission denied", .file "z.txt"])
          [("temp/z.txt", ⟨1, 420, [97]⟩)]).2.log = [⟨["z.txt"], "temp/z.txt", "z.txt"⟩] ∧
      breakError (runWalk rxLit { }
          (.dir "temp" [.unreadable "sub" "open temp/sub: permission denied", .file "z.txt"])
          [("temp/z.txt", ⟨1, 420, [97]⟩)]).1 = false ∧
      walkFn rxLit { } "temp/gone" none (some "lstat temp/gone: no such file or directory")
        = .panic := by
  decide

end Ghfork
